import Mathlib

/-!
Verification development for the Sortable coding-challenge matching engine
(`classes.py`, `match.py`).

The Python source is shallowly embedded over `List Char`.  Python regular
expressions appearing in the source are translated into executable Lean
functions whose semantics follow the regex they embed; each such function
carries a doc comment naming the regex it comes from.

Modelling conventions:
* Python strings are `List Char`; lowercasing uses `Char.toLower`
  (the inputs exercised concretely are ASCII).
* Python's re.U word class (any unicode letter, digit or underscore) is
  approximated by `pyWordChar`: ASCII alphanumerics, the underscore, and
  every character above U+007F (the non-ASCII characters appearing in this
  program's data - e.g. the break word with a u-umlaut - are letters).
* Python dicts are association lists in insertion order; the source
  iterates dicts in an unspecified order, the spec notes the behaviour is
  order-sensitive, and the list order stands in for the iteration order.
* Code that raises an exception is modelled in `Except Unit`.
-/

/-- Approximation of Python's `\w` under `re.U`: ASCII alphanumerics,
underscore, and all non-ASCII characters (treated as letters). -/
def pyWordChar (c : Char) : Bool :=
  c.isAlphanum || c = '_' || 0x7f < c.toNat

/-- Python's `\s` class (ASCII part): space, tab, newline, CR, FF, VT. -/
def pySpace (c : Char) : Bool :=
  c = ' ' || c = '\t' || c = '\n' || c = '\r' || c = '\x0c' || c = '\x0b'

/-- Python's `[^\W\d_]` (a word character that is neither digit nor
underscore), i.e. a letter. -/
def pyLetter (c : Char) : Bool :=
  pyWordChar c && !c.isDigit && c != '_'

/-- Python's substring test `needle in hay`.  The empty needle is contained
in every string, as in Python. -/
def containsSub (needle hay : List Char) : Bool :=
  (List.range (hay.length + 1)).any (fun i => needle.isPrefixOf (hay.drop i))

/-- One step of whitespace splitting, consumed by `List.foldr`. -/
def splitStep (isSep : Char → Bool) (c : Char) (acc : List (List Char)) :
    List (List Char) :=
  if isSep c then [] :: acc
  else
    match acc with
    | [] => [[c]]
    | g :: gs => (c :: g) :: gs

/-- Python's `str.split()` with no argument: split on whitespace runs,
dropping empty fragments. -/
def splitWs (cs : List Char) : List (List Char) :=
  (cs.foldr (splitStep pySpace) []).filter (fun g => !g.isEmpty)

/-- The source's `re.split('[- _]+', model)` followed by the removal of
empty tokens that the caller performs. -/
def splitDash (cs : List Char) : List (List Char) :=
  (cs.foldr (splitStep (fun c => c = '-' || c = ' ' || c = '_')) []).filter
    (fun g => !g.isEmpty)

/-- The compiled regex `_re_short_number`, i.e. `^\s*\d{1,3}\s*$`:
optional whitespace, one to three digits, optional whitespace. -/
def short_number (s : List Char) : Bool :=
  let t := s.dropWhile pySpace
  let d := t.takeWhile Char.isDigit
  let r := t.dropWhile Char.isDigit
  decide (1 ≤ d.length) && decide (d.length ≤ 3) && r.all pySpace

/-- Spec-level reading of `^\s*\d{1,3}\s*$`: the string is a 1-3 digit
number possibly surrounded by whitespace. -/
def IsBareShortNum (s : List Char) : Prop :=
  ∃ a d b, s = a ++ d ++ b ∧ (∀ c ∈ a, pySpace c = true) ∧
    (∀ c ∈ b, pySpace c = true) ∧ d ≠ [] ∧ d.length ≤ 3 ∧
    ∀ c ∈ d, c.isDigit = true

/-- The compiled regex `_re_word_like`, i.e. `^[^\W\d_]{3,}$`:
three or more letters. -/
def word_like (s : List Char) : Bool :=
  decide (3 ≤ s.length) && s.all pyLetter

/-! ## Title normalization (`Listing.make_searchable_title`) -/

/-- Engine of the source's `re.sub(r'\(.*?\)', lambda m: ' '*len(m.group()), ...)`:
each leftmost span `(...)` whose interior contains neither `)` nor a newline
(the lazy `.*?` cannot cross a newline and stops at the first `)`) is replaced
by an equal-length run of spaces.  `fuel` bounds the recursion; the wrapper
passes the string length, which suffices since every step consumes at least
one character. -/
def replaceParensGo : Nat → List Char → List Char
  | _, [] => []
  | 0, cs => cs
  | fuel + 1, '(' :: rest =>
    let interior := rest.takeWhile (fun c => c != ')' && c != '\n')
    match rest.drop interior.length with
    | ')' :: tail =>
      List.replicate (interior.length + 2) ' ' ++ replaceParensGo fuel tail
    | _ => '(' :: replaceParensGo fuel rest
  | fuel + 1, c :: rest => c :: replaceParensGo fuel rest

/-- Replace every parenthesized span by an equal-length run of spaces. -/
def replaceParens (cs : List Char) : List Char :=
  replaceParensGo cs.length cs

/-- Whether position `i` of `s` holds a word character (out of range: no). -/
def wordAt (s : List Char) (i : Nat) : Bool :=
  match s[i]? with
  | some c => pyWordChar c
  | none => false

/-- Python's `\b` at position `i`: exactly one of the two adjacent
positions holds a word character (positions outside the string count as
non-word). -/
def boundaryAt (s : List Char) (i : Nat) : Bool :=
  (if i = 0 then false else wordAt s (i - 1)) != wordAt s i

/-- A match of the regex `\b` ++ w ++ `\b` at position `i` of `s`. -/
def wholeWordAt (w s : List Char) (i : Nat) : Bool :=
  w.isPrefixOf (s.drop i) && boundaryAt s i && boundaryAt s (i + w.length)

/-- Position of the first whole-word occurrence of `w` in `s`; this is the
`m.start()` of the source's `w.search(...)` for the break-word regexes. -/
def firstWhole (w s : List Char) : Option Nat :=
  (List.range (s.length + 1)).find? (fun i => wholeWordAt w s i)

/-- One iteration of the source's break-word loop: truncate the string at
the start of the first whole-word occurrence of `w`, if any. -/
def cutOne (w s : List Char) : List Char :=
  match firstWhole w s with
  | some p => s.take p
  | none => s

/-- The source's `_break_words` list: for, pour, fuer (with u-umlaut). -/
def breakWords : List (List Char) :=
  [['f', 'o', 'r'], ['p', 'o', 'u', 'r'], ['f', 'ü', 'r']]

/-- The source's `for w in _break_words: ...` loop, truncating at each
break word in turn. -/
def applyBreaks (s : List Char) : List Char :=
  breakWords.foldl (fun t w => cutOne w t) s

/-- Embedding of `Listing.make_searchable_title`: blank out parenthesized spans, cut at
break words, keep the first 50 characters. -/
def make_searchable_title (title : List Char) : List Char :=
  (applyBreaks (replaceParens title)).take 50

/-! ## Data model -/

/-- Embedding of `classes.Product` (construction already applies `.lower()` to the
manufacturer and model; `family` is `none` when the JSON key is absent). -/
structure Product where
  product_name : List Char
  manufacturer : List Char
  model : List Char
  family : Option (List Char)
deriving DecidableEq, Repr

/-- Python truthiness of the `family` attribute (`None` and the empty
string are falsy). -/
def famTruthy : Option (List Char) → Bool
  | none => false
  | some f => !f.isEmpty

/-- Embedding of `classes.Listing`.  Its `searchable_title` is the derived field computed at
construction. -/
structure Listing where
  title : List Char
  manufacturer : List Char
  price : List Char
  currency : List Char
  searchable_title : List Char
deriving DecidableEq, Repr

/-- Embedding of `Listing.__init__`: lowercase the title and manufacturer, then derive
the searchable title. -/
def Listing.make (title manufacturer price currency : List Char) : Listing :=
  let t := title.map Char.toLower
  { title := t
    manufacturer := manufacturer.map Char.toLower
    price := price
    currency := currency
    searchable_title := make_searchable_title t }

/-- Embedding of `classes.Matcher`: a pattern source string plus the `required` flag
(compilation is modelled by the pattern interpreter below). -/
structure Matcher where
  regex : List Char
  required : Bool
deriving DecidableEq, Repr

/-- Embedding of `classes.ProductMatch`. -/
structure ProductMatch where
  product : Product
  listing : Listing
  begin_ : Nat
  length : Nat
deriving DecidableEq, Repr

/-- Embedding of `ProductMatch.sanity_check`: reject a match that is only a bare short
number (unless the model itself is a bare short number with no family), or
that is shorter than 2 characters. -/
def ProductMatch.sanity_check (m : ProductMatch) : Option ProductMatch :=
  if short_number ((m.listing.searchable_title.drop m.begin_).take m.length)
      && !(short_number m.product.model && !famTruthy m.product.family) then
    none
  else if m.length < 2 then
    none
  else
    some m

/-- Embedding of `classes.Manufacturer`: name, product list, and the set of known family
names (modelled as a duplicate-free list in insertion order). -/
structure Manufacturer where
  name : List Char
  products : List Product
  known_families : List (List Char)
deriving DecidableEq, Repr

/-- Set insertion for the `known_families` set. -/
def addFam (fs : List (List Char)) (f : List Char) : List (List Char) :=
  if f ∈ fs then fs else fs ++ [f]

/-- Embedding of `Manufacturer.add_product`: append the product and record its family
name (and the de-hyphenated form when the family contains a hyphen). -/
def Manufacturer.add_product (M : Manufacturer) (P : Product) : Manufacturer :=
  { M with
    products := M.products ++ [P]
    known_families :=
      match P.family with
      | some f =>
        if !f.isEmpty then
          if '-' ∈ f then addFam (addFam M.known_families f) (f.filter (· != '-'))
          else addFam M.known_families f
        else M.known_families
      | none => M.known_families }

/-! ## Pattern synthesis (`Product._convert_model_to_regex_string`) -/

/-- Python 2's `re.escape`: every character that is not an ASCII
alphanumeric (including the underscore) is preceded by a backslash. -/
def reEscape (cs : List Char) : List Char :=
  cs.flatMap (fun c => if c.isAlphanum then [c] else ['\\', c])

/-- Non-overlapping, left-to-right substitution of the pattern
`\b`+`pat`+`\b` by `repl`, as performed by the source's ignorable-segment
`re.sub`.  `prev` is the character preceding the current position in the
original text (boundaries are judged on the original text, and scanning
resumes after each replaced occurrence).  An empty `pat` is left alone. -/
def wwSubGo (pat repl : List Char) : Nat → Option Char → List Char → List Char
  | _, _, [] => []
  | 0, _, t => t
  | fuel + 1, prev, c :: rest =>
    let prevW := match prev with | some p => pyWordChar p | none => false
    let t := c :: rest
    if !pat.isEmpty && pat.isPrefixOf t && (prevW != pyWordChar c) &&
        ((match (t.drop pat.length).head? with
          | some nxt => pyWordChar nxt
          | none => false) != pyWordChar (pat.getLastD c)) then
      repl ++ wwSubGo pat repl fuel (some (pat.getLastD c)) (t.drop pat.length)
    else c :: wwSubGo pat repl fuel (some c) rest

/-- Whole-word substitution wrapper (fuel = text length suffices since
every step consumes at least one character). -/
def wholeWordSub (pat repl text : List Char) : List Char :=
  wwSubGo pat repl text.length none text

/-- The source's `re.sub(r'\\\W', r'\W*', model)`: every escaped non-word
character becomes `\W*`.  A match cannot start at a word character, so
advancing two characters after emitting an unmatched escape is exact. -/
def subEscNonWord : List Char → List Char
  | '\\' :: c :: rest =>
    if !pyWordChar c then '\\' :: 'W' :: '*' :: subEscNonWord rest
    else '\\' :: c :: subEscNonWord rest
  | c :: rest => c :: subEscNonWord rest
  | [] => []

/-- The source's `re.sub(r'([^\W\d_])(\d)', r'\1\W*\2', model)`: insert
`\W*` between a letter and an immediately following digit. -/
def subLetterDigit : List Char → List Char
  | c :: d :: rest =>
    if pyLetter c && d.isDigit then
      c :: '\\' :: 'W' :: '*' :: d :: subLetterDigit rest
    else c :: subLetterDigit (d :: rest)
  | l => l

/-- The source's `re.sub(r'(\d)([^\W\d_])', r'\1\W*\2', model)`: insert
`\W*` between a digit and an immediately following letter. -/
def subDigitLetter : List Char → List Char
  | c :: d :: rest =>
    if c.isDigit && pyLetter d then
      c :: '\\' :: 'W' :: '*' :: d :: subDigitLetter rest
    else c :: subDigitLetter (d :: rest)
  | l => l

/-- The trailing lookahead the source appends, `(?=\D` + `{0,3}` + `\b)`,
as a character list. -/
def lookaheadSrc : List Char :=
  ['(', '?', '=', '\\', 'D', '\x7b', '0', ',', '3', '\x7d', '\\', 'b', ')']

/-- Embedding of `Product._convert_model_to_regex_string`: escape the model, mark
ignorable segments optional, prepend the optional family prefix, loosen
escaped non-word characters to `\W*`, loosen letter/digit boundaries, and
wrap with `\b` ... lookahead. -/
def convert_model_to_regex_string (model : List Char)
    (ignorable : List (List Char)) (optPre : Option (List Char)) : List Char :=
  let m1 := reEscape model
  let m2 := ignorable.foldl
    (fun t s => wholeWordSub (reEscape s)
      (['(', '?', ':'] ++ reEscape s ++ [')', '?']) t) m1
  let m3 :=
    match optPre with
    | some pre =>
      if !pre.isEmpty then
        ['(', '?', ':'] ++ reEscape pre ++ ['\\', 'W', ')', '?'] ++ m2
      else m2
    | none => m2
  let m4 := subEscNonWord m3
  let m5 := subLetterDigit m4
  let m6 := subDigitLetter m5
  '\\' :: 'b' :: m6 ++ lookaheadSrc

/-! ## Interpreter for the synthesized patterns

The holistic pattern of a product with no ignorable segments and no family
prefix is `\b` + body + lookahead, where the body is a sequence of literal
characters and `\W*` gaps.  The interpreter below gives these patterns
their Python `re.search` semantics. -/

/-- One body element of a synthesized pattern. -/
inductive PatElem where
  | lit : Char → PatElem
  | wstar : PatElem
deriving DecidableEq, Repr

/-- Parse a pattern body made of literal characters, escaped literal
characters and `\W*` gaps; anything else (groups, classes) is refused. -/
def parseBody : List Char → Option (List PatElem)
  | [] => some []
  | '\\' :: 'W' :: '*' :: rest => (parseBody rest).map (PatElem.wstar :: ·)
  | '\\' :: c :: rest =>
    if c.isAlphanum then none else (parseBody rest).map (PatElem.lit c :: ·)
  | c :: rest =>
    if pyWordChar c && c != '\\' then (parseBody rest).map (PatElem.lit c :: ·)
    else none

/-- Parse a full holistic pattern `\b` + body + lookahead. -/
def parseHolistic (p : List Char) : Option (List PatElem) :=
  match p with
  | '\\' :: 'b' :: rest =>
    if lookaheadSrc.isSuffixOf rest then
      parseBody (rest.take (rest.length - lookaheadSrc.length))
    else none
  | _ => none

/-- Match a pattern body against a prefix of `s`, returning the number of
characters consumed.  `\W*` is matched greedily with backtracking (longest
first), matching Python's preference order. -/
def matchBodyAt : List PatElem → List Char → Option Nat
  | [], _ => some 0
  | PatElem.lit _ :: _, [] => none
  | PatElem.lit c :: ps, d :: rest =>
    if d = c then (matchBodyAt ps rest).map (· + 1) else none
  | PatElem.wstar :: ps, s =>
    let maxk := (s.takeWhile (fun c => !pyWordChar c)).length
    ((List.range (maxk + 1)).reverse).findSome?
      (fun k => (matchBodyAt ps (s.drop k)).map (· + k))

/-- The trailing lookahead `(?=\D` + `{0,3}` + `\b)` at position `e`:
some `k ≤ 3` non-digit characters exist at `e`, followed by a word
boundary. -/
def lookaheadOk (s : List Char) (e : Nat) : Bool :=
  (List.range 4).any (fun k =>
    decide (e + k ≤ s.length) && ((s.drop e).take k).all (fun c => !c.isDigit)
      && boundaryAt s (e + k))

/-- Python `re.search` for a synthesized holistic pattern: leftmost start
position at a word boundary whose body match also satisfies the trailing
lookahead.  (For the patterns at hand every `\W*` gap is followed by a
word-character literal, so the body match length at a given start is
unique and no body/lookahead backtracking interplay arises.) -/
def reSearch (ps : List PatElem) (s : List Char) : Option (Nat × Nat) :=
  (List.range (s.length + 1)).findSome? (fun i =>
    if boundaryAt s i then
      match matchBodyAt ps (s.drop i) with
      | some n => if lookaheadOk s (i + n) then some (i, n) else none
      | none => none
    else none)

/-! ## Token-pattern synthesis (`Product._create_token_regexes`) -/

/-- The token list scanned by `_create_token_regexes`: the model split on
dash/space/underscore runs (or on whitespace when `replaceDash` is false),
plus the whitespace-split family tokens, with empty tokens dropped.
(`splitWs []` is `[]`, so a falsy family contributes nothing, as in the
source's truthiness test.) -/
def tokensOf (P : Product) (replaceDash : Bool) : List (List Char) :=
  ((if replaceDash then splitDash P.model else splitWs P.model) ++
    (match P.family with
     | some f => splitWs f
     | none => [])).filter (fun t => !t.isEmpty)

/-- The source's `words_skippable` flag: word-like tokens are optional by
default, except when the model matches `^\D+$` (contains no digit). -/
def words_skippable (P : Product) : Bool :=
  !(!P.model.isEmpty && P.model.all (fun c => !c.isDigit))

/-- The `required` flag computed for one token: tokens in the ignorable
set or contained in the (truthy) family string are optional, as are
word-like tokens when `words_skippable` holds. -/
def tokRequired (P : Product) (ignorable : List (List Char))
    (tok : List Char) : Bool :=
  if tok ∈ ignorable || (famTruthy P.family && containsSub tok (P.family.getD [])) then
    false
  else if words_skippable P && word_like tok then false
  else true

/-- The matchers built for a final token list: each token's pattern comes
from `convert_model_to_regex_string` with default arguments. -/
def mkTokenMatchers (P : Product) (ignorable : List (List Char))
    (toks : List (List Char)) : List Matcher :=
  toks.map (fun tok =>
    ⟨convert_model_to_regex_string tok [] none, tokRequired P ignorable tok⟩)

/-- Whether the source's token scan recurses with `replace_dash=False`:
the (combined) token list has more than one entry, and some token is
shorter than three characters or is a bare 1-3 digit number. -/
def retok_triggered (P : Product) : Bool :=
  let toks := tokensOf P true
  decide (toks.length ≠ 1) && toks.any (fun t => decide (t.length < 3) || short_number t)

/-- Embedding of `Product._create_token_regexes`: no token matchers when a single token
remains; otherwise build matchers from the dash-split tokens, or from the
whitespace-split tokens when the re-tokenization condition fires. -/
def create_token_regexes (P : Product) (ignorable : List (List Char)) :
    List Matcher :=
  let toks := tokensOf P true
  if toks.length = 1 then []
  else if retok_triggered P then
    let toks2 := tokensOf P false
    if toks2.length = 1 then [] else mkTokenMatchers P ignorable toks2
  else mkTokenMatchers P ignorable toks

/-- Embedding of `Product._create_holistic_regex`: one required matcher for the whole
model, with the family as optional prefix. -/
def create_holistic_regex (P : Product) (ignorable : List (List Char)) :
    Matcher :=
  ⟨convert_model_to_regex_string P.model ignorable P.family, true⟩

/-! ## Ignorable-segment computation (`Manufacturer.prepare_regexes`) -/

/-- The first and last segment of a model string, dashes treated as
separators: `segments[0]` and `segments[-1]` of
`model.replace('-', ' ').split()`.  On an empty segment list the source
raises IndexError; that degenerate case is modelled as contributing no
segments. -/
def firstLastSegs (model : List Char) : List (List Char) :=
  match splitWs (model.map (fun c => if c = '-' then ' ' else c)) with
  | [] => []
  | s :: rest => [s, (s :: rest).getLast (List.cons_ne_nil s rest)]

/-- One histogram update: `histogram[seg] += 1` with insertion at 1. -/
def updateHist : List (List Char × Nat) → List Char → List (List Char × Nat)
  | [], seg => [(seg, 1)]
  | (k, v) :: rest, seg =>
    if k = seg then (k, v + 1) :: rest else (k, v) :: updateHist rest seg

/-- The histogram built by `prepare_regexes` over the first and last
segments of every product's model. -/
def buildHist (ps : List Product) : List (List Char × Nat) :=
  ps.foldl (fun h P => (firstLastSegs P.model).foldl updateHist h) []

/-- The ignorable-segment set computed by `prepare_regexes`: histogram
entries at least 2 characters long, with count strictly above a third of
the product count (Python 2 integer division) and at least 10. -/
def Manufacturer.ignorable_segments (M : Manufacturer) : List (List Char) :=
  ((buildHist M.products).filter (fun e =>
    decide (2 ≤ e.1.length) && decide (M.products.length / 3 < e.2) &&
      decide (10 ≤ e.2))).map Prod.fst

/-- Spec-level count: total number of occurrences of `seg` among the
first-and-last segment pairs of the products (a single-segment model
contributes its segment twice, as in the source). -/
def totalCount (seg : List Char) (ps : List Product) : Nat :=
  (ps.map (fun P => (firstLastSegs P.model).count seg)).sum

/-! ## Manufacturer resolution (`match.find_manufacturers_for_listing`) -/

/-- Tier 1: exact dict lookup of the listing's manufacturer string. -/
def lookupMan (lman : List Char) (mans : List (List Char × Manufacturer)) :
    Option Manufacturer :=
  (mans.find? (fun e => decide (e.1 = lman))).map Prod.snd

/-- Tier 2 scan: on the first known name contained in the listing string
the accumulated set is replaced by that singleton and scanning stops;
otherwise a (non-empty) listing string contained in a known name adds that
manufacturer to the accumulator. -/
def tier2_scan (lman : List Char) (acc : List Manufacturer) :
    List (List Char × Manufacturer) → List Manufacturer
  | [] => acc
  | (name, M) :: rest =>
    if containsSub name lman then [M]
    else if !lman.isEmpty && containsSub lman name then
      tier2_scan lman (acc ++ [M]) rest
    else tier2_scan lman acc rest

/-- The first three whitespace-separated words of the searchable title,
joined by single spaces: `' '.join(L.searchable_title.split()[:3])`. -/
def title_start (L : Listing) : List Char :=
  List.intercalate [' '] ((splitWs L.searchable_title).take 3)

/-- Tier 3: the source checks `name in title_start` and otherwise
iterates `M.families` - an attribute that does not exist (the class
defines `known_families`), so the first manufacturer whose name is not in
the title start raises AttributeError, modelled as `Except.error`. -/
def tier3 (ts : List Char) :
    List (List Char × Manufacturer) → Except Unit (List Manufacturer)
  | [] => Except.ok []
  | (name, M) :: _ =>
    if containsSub name ts then Except.ok [M] else Except.error ()

/-- Embedding of `find_manufacturers_for_listing`: exact lookup, then the substring
tier, then the title tier. -/
def find_manufacturers_for_listing (L : Listing)
    (mans : List (List Char × Manufacturer)) : Except Unit (List Manufacturer) :=
  match lookupMan L.manufacturer mans with
  | some M => Except.ok [M]
  | none =>
    match tier2_scan L.manufacturer [] mans with
    | [] => tier3 (title_start L) mans
    | ms => Except.ok ms

/-! ## Best-match ranking (`match.match_listings_to_products`) -/

/-- Stable insertion: `x` is placed before the first element `y` with
`le x y`; elements it is inserted after keep their order. -/
def insLe (le : α → α → Bool) (x : α) : List α → List α
  | [] => [x]
  | y :: ys => if le x y then x :: y :: ys else y :: insLe le x ys

/-- Stable insertion sort (equal elements keep their input order, as with
Python's `list.sort`). -/
def sortStable (le : α → α → Bool) : List α → List α
  | [] => []
  | x :: xs => insLe le x (sortStable le xs)

/-- Comparison for `matches.sort(key=lambda m: m.length, reverse=True)`. -/
def lenDesc (a b : ProductMatch) : Bool :=
  decide (b.length ≤ a.length)

/-- Comparison for `matches.sort(key=lambda m: m.begin)`. -/
def beginAsc (a b : ProductMatch) : Bool :=
  decide (a.begin_ ≤ b.begin_)

/-- The winner selection of `match_listings_to_products`: sort by length
descending, then stably by start offset ascending, and take the head (the
singleton shortcut of the source agrees with the general path). -/
def best_match : List ProductMatch → Option ProductMatch
  | [] => none
  | [m] => some m
  | ms => (sortStable beginAsc (sortStable lenDesc ms)).head?

/-! ## Spec-side definitions (used by refinement claims only) -/

/-- Minimum of two optional positions. -/
def optMin : Option Nat → Option Nat → Option Nat
  | none, b => b
  | some a, none => some a
  | some a, some b => some (min a b)

/-- Position of the earliest whole-word occurrence of any word of `ws`. -/
def minCutPos (ws : List (List Char)) (s : List Char) : Option Nat :=
  ws.foldr (fun w acc => optMin (firstWhole w s) acc) none

/-- Truncation at the earliest whole-word occurrence of any word of `ws`,
following the spec's description of the break-word step. -/
def cutAtMin (ws : List (List Char)) (s : List Char) : List Char :=
  match minCutPos ws s with
  | some p => s.take p
  | none => s

/-- The searchable title as the spec describes it: blank out parenthesized
spans, truncate at the earliest whole-word break-word occurrence, keep the
first 50 characters. -/
def searchableTitleSpec (title : List Char) : List Char :=
  (cutAtMin breakWords (replaceParens title)).take 50

/-! ## Helper lemmas -/

theorem pySpace_not_digit {c : Char} (h : pySpace c = true) : c.isDigit = false := by
  simp only [pySpace, Bool.or_eq_true, decide_eq_true_eq] at h
  rcases h with ((((h | h) | h) | h) | h) | h <;> subst h <;> decide

theorem isDigit_not_pySpace {c : Char} (h : c.isDigit = true) : pySpace c = false := by
  by_contra hc
  have := pySpace_not_digit (c := c) (by revert hc; cases pySpace c <;> simp)
  simp [h] at this

theorem takeWhile_append_of_all {p : Char → Bool} {a : List Char}
    (h : ∀ c ∈ a, p c = true) (x : List Char) :
    (a ++ x).takeWhile p = a ++ x.takeWhile p := by
  induction a with
  | nil => simp
  | cons c t ih =>
    have hc : p c = true := h c (by simp)
    have ht : ∀ d ∈ t, p d = true := fun d hd => h d (by simp [hd])
    simp [List.takeWhile_cons, hc, ih ht]

theorem dropWhile_append_of_all {p : Char → Bool} {a : List Char}
    (h : ∀ c ∈ a, p c = true) (x : List Char) :
    (a ++ x).dropWhile p = x.dropWhile p := by
  induction a with
  | nil => simp
  | cons c t ih =>
    simp only [List.cons_append, List.dropWhile_cons, h c (by simp)]
    exact ih (fun d hd => h d (by simp [hd]))

theorem takeWhile_eq_nil_of_head {p : Char → Bool} {x : List Char}
    (h : ∀ c, x.head? = some c → p c = false) : x.takeWhile p = [] := by
  cases x with
  | nil => rfl
  | cons c t => simp [List.takeWhile_cons, h c rfl]

theorem dropWhile_eq_self_of_head {p : Char → Bool} {x : List Char}
    (h : ∀ c, x.head? = some c → p c = false) : x.dropWhile p = x := by
  cases x with
  | nil => rfl
  | cons c t => simp [List.dropWhile_cons, h c rfl]

theorem short_number_iff (s : List Char) :
    short_number s = true ↔ IsBareShortNum s := by
  constructor
  · intro h
    simp only [short_number, Bool.and_eq_true, decide_eq_true_eq] at h
    obtain ⟨⟨h1, h3⟩, hr⟩ := h
    refine ⟨s.takeWhile pySpace, (s.dropWhile pySpace).takeWhile Char.isDigit,
      (s.dropWhile pySpace).dropWhile Char.isDigit, ?_, ?_, ?_, ?_, h3, ?_⟩
    · rw [List.append_assoc, List.takeWhile_append_dropWhile,
        List.takeWhile_append_dropWhile]
    · exact fun c hc => List.mem_takeWhile_imp hc
    · exact fun c hc => by
        have := hr
        simp only [List.all_eq_true] at this
        exact this c hc
    · intro hnil
      rw [hnil] at h1
      simp at h1
    · exact fun c hc => List.mem_takeWhile_imp hc
  · rintro ⟨a, d, b, rfl, ha, hb, hd, hd3, hdd⟩
    have hds : (a ++ (d ++ b)).dropWhile pySpace = d ++ b := by
      rw [dropWhile_append_of_all ha]
      exact dropWhile_eq_self_of_head (fun c hc => by
        cases d with
        | nil => exact absurd rfl hd
        | cons c0 t =>
          simp only [List.cons_append, List.head?_cons, Option.some_inj] at hc
          subst hc
          exact isDigit_not_pySpace (hdd c0 (by simp)))
    have hbnd : ∀ c, b.head? = some c → c.isDigit = false := by
      intro c hc
      have hcb : c ∈ b := by
        cases b with
        | nil => simp at hc
        | cons c0 t => simp only [List.head?_cons, Option.some_inj] at hc; simp [hc]
      exact pySpace_not_digit (hb c hcb)
    simp only [short_number, List.append_assoc, hds, Bool.and_eq_true,
      decide_eq_true_eq]
    rw [takeWhile_append_of_all hdd, List.dropWhile_append]
    have hdw : (d.dropWhile Char.isDigit) = [] := by
      simp only [List.dropWhile_eq_nil_iff]
      exact fun c hc => hdd c hc
    rw [hdw]
    simp only [List.isEmpty_nil, if_pos rfl]
    rw [takeWhile_eq_nil_of_head hbnd, dropWhile_eq_self_of_head hbnd]
    refine ⟨⟨?_, by simpa using hd3⟩, ?_⟩
    · simp only [List.append_nil, List.length_append]
      have : d.length ≠ 0 := fun h0 => hd (List.length_eq_zero.mp h0)
      omega
    · simp only [List.all_eq_true]
      exact hb

/-! ## C4: the sanity check -/

/-- C4: for every match candidate, the sanity check rejects it exactly when
the matched span of the searchable title is a bare 1-3 digit number (possibly
surrounded by whitespace) while the product's model is not itself such a bare
short number with no family name, or the matched length is below 2; otherwise
the candidate is returned unchanged. -/
theorem c4_sanity_check_spec (m : ProductMatch) :
    (m.sanity_check = none ↔
      (IsBareShortNum ((m.listing.searchable_title.drop m.begin_).take m.length) ∧
        ¬(IsBareShortNum m.product.model ∧ famTruthy m.product.family = false)) ∨
      m.length < 2) ∧
    (m.sanity_check ≠ none → m.sanity_check = some m) := by
  constructor
  · simp only [← short_number_iff]
    unfold ProductMatch.sanity_check
    cases h1 : short_number ((m.listing.searchable_title.drop m.begin_).take m.length) <;>
      cases h2 : short_number m.product.model <;>
        cases h3 : famTruthy m.product.family <;>
          by_cases hl : m.length < 2 <;>
            simp [h1, h2, h3, hl]
  · unfold ProductMatch.sanity_check
    split
    · simp
    · split
      · simp
      · simp

/-- Witness for C4: a length-1 candidate is rejected. -/
theorem c4_sanity_check_spec_witness :
    ProductMatch.sanity_check ⟨⟨[], [], [], none⟩, ⟨[], [], [], [], []⟩, 0, 1⟩ = none :=
  (c4_sanity_check_spec _).1.mpr (Or.inr (by decide))

/-! ## C2: the unknown-manufacturer path raises instead of diagnosing -/

/-- C2 (code bug): a listing whose manufacturer string shares no substring
with the known manufacturer and whose title start contains no known name
reaches the title tier, where the source reads the nonexistent attribute
`M.families` (the class defines `known_families`) and raises
AttributeError, aborting the batch instead of filing the listing under the
unknown-manufacturer diagnostics. -/
theorem c2_unknown_manufacturer_crash :
    find_manufacturers_for_listing
      (Listing.make ("quality camera bag").data ("acme").data [] [])
      [(("canon").data, ⟨("canon").data, [], []⟩)] = Except.error () := by
  rfl

/-! ## C10: empty listing-manufacturer string -/

/-- A non-empty needle is not contained in the empty string. -/
theorem containsSub_nil {name : List Char} (h : name ≠ []) :
    containsSub name [] = false := by
  cases name with
  | nil => exact absurd rfl h
  | cons c t => rfl

/-- Tier 2 accumulates nothing for the empty listing string when no known
name is empty. -/
theorem tier2_scan_nil_lman (mans : List (List Char × Manufacturer))
    (hn : ∀ e ∈ mans, e.1 ≠ []) (acc : List Manufacturer) :
    tier2_scan [] acc mans = acc := by
  induction mans generalizing acc with
  | nil => rfl
  | cons hd tl ih =>
    obtain ⟨name, M⟩ := hd
    have hcs : containsSub name [] = false := containsSub_nil (hn (name, M) (by simp))
    simp only [tier2_scan, hcs, Bool.false_eq_true, if_false, List.isEmpty_nil,
      Bool.not_true, Bool.false_and]
    exact ih (fun e he => hn e (by simp [he])) acc

/-- C10 (amended): for every catalog whose known manufacturer names are all
non-empty, a listing with an empty manufacturer string is resolved by
neither the exact tier nor the substring tier (the empty string is never
treated as contained in a known name, so no manufacturer accumulates), and
resolution falls through to the title-based tier. -/
theorem c10_empty_manufacturer (L : Listing)
    (mans : List (List Char × Manufacturer)) (hL : L.manufacturer = [])
    (hn : ∀ e ∈ mans, e.1 ≠ []) :
    lookupMan L.manufacturer mans = none ∧
    tier2_scan L.manufacturer [] mans = [] ∧
    find_manufacturers_for_listing L mans = tier3 (title_start L) mans := by
  have h1 : lookupMan L.manufacturer mans = none := by
    unfold lookupMan
    rw [List.find?_eq_none.mpr]
    · rfl
    · intro e he
      simp only [decide_eq_true_eq, hL]
      exact hn e he
  have h2 : tier2_scan L.manufacturer [] mans = [] := by
    rw [hL]
    exact tier2_scan_nil_lman mans hn []
  refine ⟨h1, h2, ?_⟩
  unfold find_manufacturers_for_listing
  rw [h1, h2]

/-- Witness for C10 at a concrete catalog and listing. -/
theorem c10_empty_manufacturer_witness :
    lookupMan (Listing.make ("camera").data [] [] []).manufacturer
        [(("zzz").data, ⟨("zzz").data, [], []⟩)] = none ∧
    tier2_scan (Listing.make ("camera").data [] [] []).manufacturer []
        [(("zzz").data, ⟨("zzz").data, [], []⟩)] = [] ∧
    find_manufacturers_for_listing (Listing.make ("camera").data [] [] [])
        [(("zzz").data, ⟨("zzz").data, [], []⟩)] =
      tier3 (title_start (Listing.make ("camera").data [] [] []))
        [(("zzz").data, ⟨("zzz").data, [], []⟩)] :=
  c10_empty_manufacturer _ _ (by rfl) (by decide)

/-- Counterexample for C10 as stated: with a catalog containing an
empty-named manufacturer, the empty-manufacturer listing is resolved by the
exact first tier, so resolution does not fall through to the title-based
tier. -/
theorem c10_cex :
    lookupMan (Listing.make [] [] [] []).manufacturer
        [([], (⟨[], [], []⟩ : Manufacturer))] = some ⟨[], [], []⟩ ∧
    find_manufacturers_for_listing (Listing.make [] [] [] [])
        [([], ⟨[], [], []⟩)] = Except.ok [⟨[], [], []⟩] :=
  ⟨rfl, rfl⟩

/-! ## C1: the substring tier -/

/-- Behaviour of `find?` over a split list whose prefix fails the predicate. -/
theorem find?_append_cons {α : Type} (p : α → Bool) (pre : List α) (x : α)
    (post : List α) (hpre : ∀ y ∈ pre, p y = false) (hx : p x = true) :
    (pre ++ x :: post).find? p = some x := by
  induction pre with
  | nil => simp [List.find?_cons_of_pos, hx]
  | cons a t ih =>
    have ha : p a = false := hpre a (by simp)
    rw [List.cons_append, List.find?_cons_of_neg _ (by simp [ha])]
    exact ih (fun y hy => hpre y (by simp [hy]))

/-- Characterization of the tier-2 scan: a break hit discards the
accumulator and yields a singleton; otherwise the accumulated candidates
are exactly the manufacturers whose name contains the (non-empty) listing
string. -/
theorem tier2_scan_eq (lman : List Char)
    (mans : List (List Char × Manufacturer)) (acc : List Manufacturer) :
    tier2_scan lman acc mans =
      match mans.find? (fun e => containsSub e.1 lman) with
      | some e => [e.2]
      | none =>
        acc ++ (mans.filter
          (fun e => !lman.isEmpty && containsSub lman e.1)).map Prod.snd := by
  induction mans generalizing acc with
  | nil => simp [tier2_scan]
  | cons hd tl ih =>
    obtain ⟨name, M⟩ := hd
    by_cases h1 : containsSub name lman = true
    · rw [List.find?_cons_of_pos _ (by simpa using h1)]
      simp [tier2_scan, h1]
    · have h1f : containsSub name lman = false := by
        revert h1; cases containsSub name lman <;> simp
      rw [List.find?_cons_of_neg _ (by simpa using h1f)]
      by_cases h2 : (!lman.isEmpty && containsSub lman name) = true
      · simp only [tier2_scan, h1f, Bool.false_eq_true, if_false, h2, if_true]
        rw [ih (acc ++ [M])]
        cases hf : tl.find? (fun e => containsSub e.1 lman) with
        | some e => simp
        | none =>
          simp only [List.filter_cons, h2, List.map_cons, List.append_assoc]
          rfl
      · have h2f : (!lman.isEmpty && containsSub lman name) = false := by
          revert h2; cases (!lman.isEmpty && containsSub lman name) <;> simp
        simp only [tier2_scan, h1f, Bool.false_eq_true, if_false, h2f, if_true]
        rw [ih acc]
        cases hf : tl.find? (fun e => containsSub e.1 lman) with
        | some e => simp
        | none => simp [List.filter_cons, h2f]

/-- C1 (amended): in the substring tier, whenever the listing's manufacturer
string contains a known manufacturer name, the resolver returns exactly the
first such manufacturer in scan order, discarding any accumulation, and
stops scanning; whenever instead no known name is contained in the listing
string, every manufacturer whose name contains the non-empty listing string
is accumulated as a candidate (and multiple manufacturers can accumulate
this way), that accumulated set being the result when non-empty. -/
theorem c1_substring_tier (L : Listing)
    (mans : List (List Char × Manufacturer))
    (h1 : lookupMan L.manufacturer mans = none) :
    (∀ pre name M post, mans = pre ++ (name, M) :: post →
      (∀ e ∈ pre, containsSub e.1 L.manufacturer = false) →
      containsSub name L.manufacturer = true →
      find_manufacturers_for_listing L mans = Except.ok [M]) ∧
    ((∀ e ∈ mans, containsSub e.1 L.manufacturer = false) →
      (mans.filter
        (fun e => !L.manufacturer.isEmpty && containsSub L.manufacturer e.1)).map
          Prod.snd ≠ [] →
      find_manufacturers_for_listing L mans = Except.ok
        ((mans.filter
          (fun e => !L.manufacturer.isEmpty && containsSub L.manufacturer e.1)).map
            Prod.snd)) := by
  constructor
  · intro pre name M post hsplit hpre hname
    unfold find_manufacturers_for_listing
    rw [h1, tier2_scan_eq, hsplit,
      find?_append_cons _ pre (name, M) post (fun y hy => hpre y hy) hname]
  · intro hmiss hne
    unfold find_manufacturers_for_listing
    rw [h1, tier2_scan_eq, List.find?_eq_none.mpr
      (fun e he => by simp [hmiss e he])]
    cases hout : (mans.filter
        (fun e => !L.manufacturer.isEmpty && containsSub L.manufacturer e.1)).map
          Prod.snd with
    | nil => exact absurd hout hne
    | cons a l => rfl

/-- Witness for C1 exercising both directions: a break hit returning the
single first containing-name manufacturer, and an accumulation run
collecting two manufacturers. -/
theorem c1_substring_tier_witness :
    find_manufacturers_for_listing
        (Listing.make ("tt").data ("canon inc").data [] [])
        [(("ab").data, ⟨("ab").data, [], []⟩),
         (("canon").data, ⟨("canon").data, [], []⟩)] =
      Except.ok [⟨("canon").data, [], []⟩] ∧
    find_manufacturers_for_listing
        (Listing.make ("tt").data ("ab").data [] [])
        [(("xaby").data, ⟨("xaby").data, [], []⟩),
         (("zabw").data, ⟨("zabw").data, [], []⟩)] =
      Except.ok [⟨("xaby").data, [], []⟩, ⟨("zabw").data, [], []⟩] := by
  constructor
  · exact (c1_substring_tier _ _ (by rfl)).1
      [(("ab").data, ⟨("ab").data, [], []⟩)] ("canon").data
      ⟨("canon").data, [], []⟩ [] (by rfl) (by decide) (by decide)
  · exact (c1_substring_tier _ _ (by rfl)).2 (by decide) (by decide)

/-- Counterexample for C1 as stated: the listing string "abx" contains the
known name "bx", so by the claim that manufacturer should be accumulated
into the result, but the code stops at the earlier name "ab" (contained in
the listing string) and returns it alone. -/
theorem c1_cex :
    find_manufacturers_for_listing
        (Listing.make ("some title").data ("abx").data [] [])
        [(("ab").data, ⟨("ab").data, [], []⟩),
         (("bx").data, ⟨("bx").data, [], []⟩)] =
      Except.ok [⟨("ab").data, [], []⟩] ∧
    containsSub ("bx").data
        (Listing.make ("some title").data ("abx").data [] []).manufacturer = true ∧
    (⟨("bx").data, [], []⟩ : Manufacturer) ∉
      [(⟨("ab").data, [], []⟩ : Manufacturer)] := by
  refine ⟨by rfl, by rfl, by decide⟩

/-! ## C9: the re-tokenization trigger -/

/-- C9 (amended): re-tokenization without dash splitting is triggered
exactly when the combined token list (dash-split model tokens plus
whitespace-split family tokens, empties dropped) has more than one token
and contains a token shorter than 3 characters or a bare 1-3 digit number;
when triggered, the token matchers are built from the whitespace-split
token list. -/
theorem c9_retok_trigger (P : Product) :
    (retok_triggered P = true ↔
      (tokensOf P true).length ≠ 1 ∧
        ∃ t ∈ tokensOf P true, t.length < 3 ∨ IsBareShortNum t) ∧
    ∀ ign, retok_triggered P = true →
      create_token_regexes P ign =
        (if (tokensOf P false).length = 1 then []
         else mkTokenMatchers P ign (tokensOf P false)) := by
  constructor
  · unfold retok_triggered
    simp only [Bool.and_eq_true, decide_eq_true_eq, List.any_eq_true,
      Bool.or_eq_true, ← short_number_iff]
  · intro ign h
    have hlen : ¬(tokensOf P true).length = 1 := by
      unfold retok_triggered at h
      simp only [Bool.and_eq_true, decide_eq_true_eq] at h
      exact h.1
    unfold create_token_regexes
    rw [if_neg hlen, if_pos h]

/-- Witness for C9: the model "ab cd" dash-splits into two short tokens,
triggering re-tokenization, and the matchers come from the
whitespace-split tokens. -/
theorem c9_retok_trigger_witness :
    retok_triggered ⟨("n").data, ("m").data, ("ab cd").data, none⟩ = true ∧
    create_token_regexes ⟨("n").data, ("m").data, ("ab cd").data, none⟩ [] =
      (if (tokensOf ⟨("n").data, ("m").data, ("ab cd").data, none⟩ false).length = 1
       then []
       else mkTokenMatchers ⟨("n").data, ("m").data, ("ab cd").data, none⟩ []
         (tokensOf ⟨("n").data, ("m").data, ("ab cd").data, none⟩ false)) := by
  have ht : retok_triggered ⟨("n").data, ("m").data, ("ab cd").data, none⟩ = true :=
    (c9_retok_trigger _).1.mpr
      ⟨by decide, ("ab").data, by decide, Or.inl (by decide)⟩
  exact ⟨ht, (c9_retok_trigger _).2 [] ht⟩

/-- Counterexample for C9 as stated: for model "abc def" with family "xy",
every token produced by dash-splitting the model is three characters long
and non-numeric, yet re-tokenization is triggered (by the short family
token "xy"). -/
theorem c9_cex :
    retok_triggered ⟨("n").data, ("m").data, ("abc def").data, some ("xy").data⟩ =
      true ∧
    (splitDash ("abc def").data).all
      (fun t => decide (3 ≤ t.length) && !short_number t) = true := by
  exact ⟨by rfl, by rfl⟩

/-! ## C5: the ignorable-segment threshold -/

/-- Value stored in the histogram for a key (0 when absent). -/
def histVal (h : List (List Char × Nat)) (seg : List Char) : Nat :=
  match h.find? (fun e => decide (e.1 = seg)) with
  | some e => e.2
  | none => 0

theorem histVal_nil (seg : List Char) : histVal [] seg = 0 := rfl

theorem histVal_cons (k : List Char) (v : Nat) (rest : List (List Char × Nat))
    (seg : List Char) :
    histVal ((k, v) :: rest) seg = if k = seg then v else histVal rest seg := by
  by_cases hks : k = seg
  · simp [histVal, List.find?_cons, hks]
  · simp [histVal, List.find?_cons, hks]

theorem updateHist_cons (k : List Char) (v : Nat) (rest : List (List Char × Nat))
    (t : List Char) :
    updateHist ((k, v) :: rest) t =
      if k = t then (k, v + 1) :: rest else (k, v) :: updateHist rest t := rfl

theorem histVal_updateHist (h : List (List Char × Nat)) (t seg : List Char) :
    histVal (updateHist h t) seg =
      histVal h seg + (if t = seg then 1 else 0) := by
  induction h with
  | nil =>
    by_cases ht : t = seg
    · simp [updateHist, histVal_cons, histVal_nil, ht]
    · simp [updateHist, histVal_cons, histVal_nil, ht]
  | cons e rest ih =>
    obtain ⟨k, v⟩ := e
    rw [updateHist_cons]
    by_cases hkt : k = t
    · rw [if_pos hkt, histVal_cons, histVal_cons]
      by_cases hks : k = seg
      · rw [if_pos hks, if_pos hks, if_pos (hkt.symm.trans hks)]
      · have hts : ¬t = seg := fun hh => hks (hkt.trans hh)
        rw [if_neg hks, if_neg hks, if_neg hts]
        omega
    · rw [if_neg hkt, histVal_cons, histVal_cons]
      by_cases hks : k = seg
      · have hts : ¬t = seg := fun hh => hkt (hks.trans hh.symm)
        rw [if_pos hks, if_pos hks, if_neg hts]
        omega
      · rw [if_neg hks, if_neg hks]
        exact ih

theorem histVal_foldl_segs (seg : List Char) :
    ∀ (segs : List (List Char)) (h : List (List Char × Nat)),
      histVal (segs.foldl updateHist h) seg = histVal h seg + segs.count seg := by
  intro segs
  induction segs with
  | nil => simp
  | cons t rest ih =>
    intro h
    simp only [List.foldl_cons, ih, histVal_updateHist, List.count_cons]
    by_cases ht : t = seg
    · subst ht
      simp only [if_pos rfl, beq_self_eq_true, if_true]
      omega
    · have hbeq : (t == seg) = false := by simpa using ht
      simp [if_neg ht, hbeq]

theorem histVal_buildHist (seg : List Char) (ps : List Product) :
    histVal (buildHist ps) seg = totalCount seg ps := by
  suffices hgen : ∀ (l : List Product) (h : List (List Char × Nat)),
      histVal (l.foldl (fun h P => (firstLastSegs P.model).foldl updateHist h) h) seg =
        histVal h seg + totalCount seg l by
    simpa [buildHist, histVal_nil] using hgen ps []
  intro l
  induction l with
  | nil => simp [totalCount]
  | cons P rest ih =>
    intro h
    simp only [List.foldl_cons, ih, histVal_foldl_segs, totalCount, List.map_cons,
      List.sum_cons]
    omega

/-- Keys of an updated histogram come from the old keys or the new segment. -/
theorem fst_mem_updateHist {h : List (List Char × Nat)} {t : List Char}
    {e : List Char × Nat} (he : e ∈ updateHist h t) :
    e.1 ∈ h.map Prod.fst ∨ e.1 = t := by
  induction h with
  | nil =>
    simp only [updateHist, List.mem_singleton] at he
    simp [he]
  | cons f rest ih =>
    obtain ⟨k, v⟩ := f
    rw [updateHist_cons] at he
    by_cases hkt : k = t
    · rw [if_pos hkt] at he
      rcases List.mem_cons.mp he with rfl | hmem
      · simp
      · exact Or.inl (by
          simp only [List.map_cons, List.mem_cons]
          exact Or.inr (List.mem_map.mpr ⟨e, hmem, rfl⟩))
    · rw [if_neg hkt] at he
      rcases List.mem_cons.mp he with rfl | hmem
      · simp
      · rcases ih hmem with hh | hh
        · exact Or.inl (by
            simp only [List.map_cons, List.mem_cons]
            exact Or.inr hh)
        · exact Or.inr hh

/-- Histogram updates preserve key distinctness. -/
theorem pairwise_updateHist {h : List (List Char × Nat)} {t : List Char}
    (hp : h.Pairwise (fun a b => a.1 ≠ b.1)) :
    (updateHist h t).Pairwise (fun a b => a.1 ≠ b.1) := by
  induction h with
  | nil => simp [updateHist]
  | cons f rest ih =>
    obtain ⟨k, v⟩ := f
    rw [List.pairwise_cons] at hp
    rw [updateHist_cons]
    by_cases hkt : k = t
    · rw [if_pos hkt, List.pairwise_cons]
      exact ⟨fun e he => hp.1 e he, hp.2⟩
    · rw [if_neg hkt, List.pairwise_cons]
      refine ⟨?_, ih hp.2⟩
      intro e he
      rcases fst_mem_updateHist he with hh | hh
      · rcases List.mem_map.mp hh with ⟨a, ha, hfa⟩
        intro hk
        exact hp.1 a ha (hk.trans hfa.symm)
      · intro hk
        exact hkt (hk.trans hh)

/-- The histogram built over any product list has distinct keys. -/
theorem pairwise_buildHist (ps : List Product) :
    (buildHist ps).Pairwise (fun a b => a.1 ≠ b.1) := by
  suffices hgen : ∀ (l : List Product) (h : List (List Char × Nat)),
      h.Pairwise (fun a b => a.1 ≠ b.1) →
      (l.foldl (fun h P => (firstLastSegs P.model).foldl updateHist h) h).Pairwise
        (fun a b => a.1 ≠ b.1) by
    exact hgen ps [] (by simp)
  intro l
  induction l with
  | nil => exact fun h hp => hp
  | cons P rest ih =>
    intro h hp
    simp only [List.foldl_cons]
    refine ih _ ?_
    clear ih
    induction firstLastSegs P.model generalizing h with
    | nil => exact hp
    | cons s ss ihs => exact ihs (updateHist h s) (pairwise_updateHist hp)

/-- In a key-distinct histogram the stored value of a member is `histVal`. -/
theorem histVal_of_mem {h : List (List Char × Nat)} {seg : List Char} {v : Nat}
    (hp : h.Pairwise (fun a b => a.1 ≠ b.1)) (hm : (seg, v) ∈ h) :
    histVal h seg = v := by
  induction h with
  | nil => simp at hm
  | cons f rest ih =>
    obtain ⟨k, w⟩ := f
    rw [List.pairwise_cons] at hp
    rcases List.mem_cons.mp hm with heq | hmem
    · injection heq with h1 h2
      subst h1
      subst h2
      rw [histVal_cons, if_pos rfl]
    · have hks : k ≠ seg := hp.1 (seg, v) hmem
      rw [histVal_cons, if_neg hks]
      exact ih hp.2 hmem

/-- A nonzero `histVal` is realized by a member entry. -/
theorem mem_of_histVal_ne_zero {h : List (List Char × Nat)} {seg : List Char}
    (hv : histVal h seg ≠ 0) : (seg, histVal h seg) ∈ h := by
  unfold histVal at hv ⊢
  cases hf : h.find? (fun e => decide (e.1 = seg)) with
  | none =>
    rw [hf] at hv
    exact absurd rfl hv
  | some e =>
    have h1 : e.1 = seg := by simpa using List.find?_some hf
    have h2 : e ∈ h := List.mem_of_find?_eq_some hf
    show (seg, e.2) ∈ h
    rw [← h1]
    simpa using h2

/-- C5: a first-or-last model segment is ignorable exactly when it is at
least 2 characters long, its histogram count exceeds strictly one third of
the manufacturer's products (Python 2's integer division coincides with
the exact strict comparison), and that count is at least 10; a segment
whose count is exactly one third is not ignorable.  The count is the
number of occurrences of the segment among the (first, last) segment pairs
of the products.  The hypothesis `hseg` restricts to manufacturers the
source handles (it raises IndexError on a product whose model has no
segments). -/
theorem c5_ignorable_threshold (M : Manufacturer) (seg : List Char)
    (_hseg : ∀ P ∈ M.products, firstLastSegs P.model ≠ []) :
    (seg ∈ M.ignorable_segments ↔
      2 ≤ seg.length ∧ M.products.length < 3 * totalCount seg M.products ∧
        10 ≤ totalCount seg M.products) ∧
    (3 * totalCount seg M.products = M.products.length →
      seg ∉ M.ignorable_segments) := by
  have hdiv : (M.products.length / 3 < totalCount seg M.products) ↔
      M.products.length < 3 * totalCount seg M.products := by
    rw [Nat.div_lt_iff_lt_mul (by omega)]
    omega
  have hmain : seg ∈ M.ignorable_segments ↔
      2 ≤ seg.length ∧ M.products.length / 3 < totalCount seg M.products ∧
        10 ≤ totalCount seg M.products := by
    unfold Manufacturer.ignorable_segments
    rw [List.mem_map]
    constructor
    · rintro ⟨e, he, rfl⟩
      rw [List.mem_filter] at he
      obtain ⟨hmem, hcond⟩ := he
      simp only [Bool.and_eq_true, decide_eq_true_eq] at hcond
      have hv : e.2 = totalCount e.1 M.products := by
        rw [← histVal_buildHist]
        exact (histVal_of_mem (pairwise_buildHist M.products)
          (by simpa using hmem)).symm
      exact ⟨hcond.1.1, hv ▸ hcond.1.2, hv ▸ hcond.2⟩
    · rintro ⟨h2, h3, h10⟩
      have hne : totalCount seg M.products ≠ 0 := by omega
      have hv : histVal (buildHist M.products) seg = totalCount seg M.products :=
        histVal_buildHist _ _
      have hm : (seg, totalCount seg M.products) ∈ buildHist M.products := by
        rw [← hv]
        exact mem_of_histVal_ne_zero (by rw [hv]; exact hne)
      refine ⟨(seg, totalCount seg M.products), ?_, rfl⟩
      rw [List.mem_filter]
      refine ⟨hm, ?_⟩
      simp only [Bool.and_eq_true, decide_eq_true_eq]
      exact ⟨⟨h2, h3⟩, h10⟩
  constructor
  · constructor
    · intro h
      obtain ⟨a, b, c⟩ := hmain.mp h
      exact ⟨a, hdiv.mp b, c⟩
    · rintro ⟨a, b, c⟩
      exact hmain.mpr ⟨a, hdiv.mpr b, c⟩
  · intro heq hin
    obtain ⟨_, hb, _⟩ := hmain.mp hin
    have := hdiv.mp hb
    omega

/-- Product with model "dmc-a1", used in the C5 witness. -/
def c5prodD : Product := ⟨[], [], ("dmc-a1").data, none⟩

/-- Manufacturer with 14 products, 12 of which give "dmc" as first
segment. -/
def c5manA : Manufacturer :=
  ⟨("pan").data,
    List.replicate 12 c5prodD ++
      [⟨[], [], ("xq").data, none⟩, ⟨[], [], ("yq").data, none⟩], []⟩

/-- Manufacturer with 30 products, exactly 10 of which give "ab" as first
segment (count exactly one third). -/
def c5manB : Manufacturer :=
  ⟨("bb").data,
    List.replicate 10 (⟨[], [], ("ab-cd").data, none⟩ : Product) ++
      List.replicate 20 (⟨[], [], ("xyz").data, none⟩ : Product), []⟩

/-- Witness for C5: "dmc" (count 12 of 14 products) is ignorable; "ab"
(count 10 of exactly 30 products) is not. -/
theorem c5_ignorable_threshold_witness :
    ("dmc").data ∈ c5manA.ignorable_segments ∧
    ("ab").data ∉ c5manB.ignorable_segments := by
  constructor
  · exact (c5_ignorable_threshold c5manA ("dmc").data (by decide)).1.mpr (by decide)
  · exact (c5_ignorable_threshold c5manB ("ab").data (by decide)).2 (by decide)

/-! ## C3: best-match ranking -/

/-- Structure of a stable insertion: the new element lands after exactly
the elements it does not compare at-or-before. -/
theorem insLe_structure {α : Type} (le : α → α → Bool) (x : α) (l : List α) :
    ∃ l₁ l₂, l = l₁ ++ l₂ ∧ insLe le x l = l₁ ++ x :: l₂ ∧
      ∀ y ∈ l₁, le x y = false := by
  induction l with
  | nil => exact ⟨[], [], rfl, rfl, by simp⟩
  | cons y ys ih =>
    by_cases h : le x y = true
    · exact ⟨[], y :: ys, rfl, by simp [insLe, h], by simp⟩
    · obtain ⟨l₁, l₂, he, hi, hf⟩ := ih
      have hfalse : le x y = false := by revert h; cases le x y <;> simp
      refine ⟨y :: l₁, l₂, by simp [he], ?_, ?_⟩
      · simp [insLe, hfalse, hi]
      · intro z hz
        rcases List.mem_cons.mp hz with rfl | hz'
        · exact hfalse
        · exact hf z hz'

theorem mem_insLe {α : Type} (le : α → α → Bool) (x : α) (l : List α) (z : α) :
    z ∈ insLe le x l ↔ z = x ∨ z ∈ l := by
  obtain ⟨l₁, l₂, he, hi, _⟩ := insLe_structure le x l
  rw [hi, he]
  simp only [List.mem_append, List.mem_cons]
  tauto

theorem insLe_perm {α : Type} (le : α → α → Bool) (x : α) (l : List α) :
    (insLe le x l).Perm (x :: l) := by
  obtain ⟨l₁, l₂, he, hi, _⟩ := insLe_structure le x l
  rw [hi, he]
  exact List.perm_middle

theorem sortStable_perm {α : Type} (le : α → α → Bool) (l : List α) :
    (sortStable le l).Perm l := by
  induction l with
  | nil => exact List.Perm.refl _
  | cons x xs ih =>
    exact (insLe_perm le x (sortStable le xs)).trans (ih.cons x)

theorem pairwise_insLe {α : Type} (le : α → α → Bool)
    (htot : ∀ a b, le a b = false → le b a = true)
    (htrans : ∀ a b c, le a b = true → le b c = true → le a c = true)
    (x : α) (s : List α) (hp : s.Pairwise (fun a b => le a b = true)) :
    (insLe le x s).Pairwise (fun a b => le a b = true) := by
  induction s with
  | nil => simp [insLe]
  | cons y ys ihs =>
    rw [List.pairwise_cons] at hp
    by_cases h : le x y = true
    · simp only [insLe, if_pos h]
      rw [List.pairwise_cons]
      refine ⟨?_, List.pairwise_cons.mpr hp⟩
      intro z hz
      rcases List.mem_cons.mp hz with rfl | hz'
      · exact h
      · exact htrans x y z h (hp.1 z hz')
    · have hfalse : le x y = false := by revert h; cases le x y <;> simp
      simp only [insLe, hfalse, Bool.false_eq_true, if_false]
      rw [List.pairwise_cons]
      refine ⟨?_, ihs hp.2⟩
      intro z hz
      rcases (mem_insLe le x ys z).mp hz with hzx | hz'
      · rw [hzx]
        exact htot x y hfalse
      · exact hp.1 z hz'

theorem sortStable_pairwise {α : Type} (le : α → α → Bool)
    (htot : ∀ a b, le a b = false → le b a = true)
    (htrans : ∀ a b c, le a b = true → le b c = true → le a c = true)
    (l : List α) :
    (sortStable le l).Pairwise (fun a b => le a b = true) := by
  induction l with
  | nil => simp [sortStable]
  | cons x xs ih => exact pairwise_insLe le htot htrans x _ ih

/-- Stability of the sort, seen through a filter whose members are
pairwise in the relation: their subsequence is untouched. -/
theorem sortStable_filter {α : Type} (le : α → α → Bool) (q : α → Bool)
    (hq : ∀ a b, q a = true → q b = true → le a b = true) (l : List α) :
    (sortStable le l).filter q = l.filter q := by
  induction l with
  | nil => rfl
  | cons x xs ih =>
    obtain ⟨l₁, l₂, he, hi, hf⟩ := insLe_structure le x (sortStable le xs)
    show (insLe le x (sortStable le xs)).filter q = _
    rw [hi, List.filter_append]
    have hsplit : (sortStable le xs).filter q = l₁.filter q ++ l₂.filter q := by
      rw [he, List.filter_append]
    by_cases hx : q x = true
    · have hl₁ : l₁.filter q = [] := by
        rw [List.filter_eq_nil_iff]
        intro a ha hqa
        have := hq x a hx hqa
        rw [hf a ha] at this
        exact Bool.false_ne_true this
      rw [List.filter_cons_of_pos hx, hl₁]
      rw [hl₁] at hsplit
      simp only [List.nil_append] at hsplit ⊢
      rw [List.filter_cons_of_pos hx, ← hsplit, ih]
    · have hxf : q x = false := by revert hx; cases q x <;> simp
      rw [List.filter_cons_of_neg (by simp [hxf]), ← hsplit, ih,
        List.filter_cons_of_neg (by simp [hxf])]

theorem beginAsc_total (a b : ProductMatch) (h : beginAsc a b = false) :
    beginAsc b a = true := by
  simp only [beginAsc, decide_eq_false_iff_not, not_le] at h
  simp only [beginAsc, decide_eq_true_eq]
  omega

theorem beginAsc_trans (a b c : ProductMatch) (h1 : beginAsc a b = true)
    (h2 : beginAsc b c = true) : beginAsc a c = true := by
  simp only [beginAsc, decide_eq_true_eq] at h1 h2 ⊢
  omega

theorem lenDesc_total (a b : ProductMatch) (h : lenDesc a b = false) :
    lenDesc b a = true := by
  simp only [lenDesc, decide_eq_false_iff_not, not_le] at h
  simp only [lenDesc, decide_eq_true_eq]
  omega

theorem lenDesc_trans (a b c : ProductMatch) (h1 : lenDesc a b = true)
    (h2 : lenDesc b c = true) : lenDesc a c = true := by
  simp only [lenDesc, decide_eq_true_eq] at h1 h2 ⊢
  omega

/-- Characterization of the winner: it occurs in the candidate list, has
the smallest start offset, and the greatest length among candidates with
that start offset. -/
theorem best_match_spec (ms : List ProductMatch) (b : ProductMatch)
    (hb : best_match ms = some b) :
    b ∈ ms ∧ (∀ m ∈ ms, b.begin_ ≤ m.begin_) ∧
      ∀ m ∈ ms, m.begin_ = b.begin_ → m.length ≤ b.length := by
  cases ms with
  | nil => simp [best_match] at hb
  | cons m0 rest =>
    cases rest with
    | nil =>
      simp only [best_match, Option.some_inj] at hb
      subst hb
      refine ⟨by simp, ?_, ?_⟩
      · intro m hm
        rw [List.mem_singleton.mp hm]
      · intro m hm
        rw [List.mem_singleton.mp hm]
        omega
    | cons m1 rest2 =>
      have hb2 : (sortStable beginAsc (sortStable lenDesc (m0 :: m1 :: rest2))).head? =
          some b := hb
      obtain ⟨tail, ht⟩ : ∃ t,
          sortStable beginAsc (sortStable lenDesc (m0 :: m1 :: rest2)) = b :: t := by
        cases hl : sortStable beginAsc (sortStable lenDesc (m0 :: m1 :: rest2)) with
        | nil => rw [hl] at hb2; simp at hb2
        | cons a t =>
          rw [hl] at hb2
          simp only [List.head?_cons, Option.some_inj] at hb2
          exact ⟨t, by rw [hb2]⟩
      have hperm : (sortStable beginAsc (sortStable lenDesc (m0 :: m1 :: rest2))).Perm
          (m0 :: m1 :: rest2) :=
        (sortStable_perm _ _).trans (sortStable_perm _ _)
      have hbmem : b ∈ m0 :: m1 :: rest2 :=
        hperm.mem_iff.mp (by rw [ht]; simp)
      have hpw2 : (sortStable beginAsc (sortStable lenDesc (m0 :: m1 :: rest2))).Pairwise
          (fun a c => beginAsc a c = true) :=
        sortStable_pairwise beginAsc beginAsc_total beginAsc_trans _
      rw [ht, List.pairwise_cons] at hpw2
      have hmin : ∀ m ∈ m0 :: m1 :: rest2, b.begin_ ≤ m.begin_ := by
        intro m hm
        have hm2 : m ∈ b :: tail := by
          rw [← ht]
          exact hperm.mem_iff.mpr hm
        rcases List.mem_cons.mp hm2 with rfl | hm3
        · omega
        · have := hpw2.1 m hm3
          simpa [beginAsc] using this
      refine ⟨hbmem, hmin, ?_⟩
      intro m hm hbeg
      by_cases hmb : m = b
      · rw [hmb]
      · have hq : ∀ a c : ProductMatch, decide (a.begin_ = b.begin_) = true →
            decide (c.begin_ = b.begin_) = true → beginAsc a c = true := by
          intro a c ha hc
          simp only [decide_eq_true_eq] at ha hc
          simp only [beginAsc, decide_eq_true_eq]
          omega
        have hfil := sortStable_filter beginAsc
          (fun m => decide (m.begin_ = b.begin_)) hq
          (sortStable lenDesc (m0 :: m1 :: rest2))
        rw [ht] at hfil
        rw [List.filter_cons_of_pos (by simp)] at hfil
        have hpw1 : (sortStable lenDesc (m0 :: m1 :: rest2)).Pairwise
            (fun a c => lenDesc a c = true) :=
          sortStable_pairwise lenDesc lenDesc_total lenDesc_trans _
        have hpwf : ((sortStable lenDesc (m0 :: m1 :: rest2)).filter
            (fun m => decide (m.begin_ = b.begin_))).Pairwise
            (fun a c => lenDesc a c = true) :=
          hpw1.sublist (List.filter_sublist _)
        rw [← hfil, List.pairwise_cons] at hpwf
        have hmem1 : m ∈ sortStable lenDesc (m0 :: m1 :: rest2) :=
          (sortStable_perm lenDesc (m0 :: m1 :: rest2)).mem_iff.mpr hm
        have hmemf : m ∈ (sortStable lenDesc (m0 :: m1 :: rest2)).filter
            (fun m => decide (m.begin_ = b.begin_)) :=
          List.mem_filter.mpr ⟨hmem1, by simp [hbeg]⟩
        rw [← hfil] at hmemf
        rcases List.mem_cons.mp hmemf with rfl | hmf
        · omega
        · have := hpwf.1 m hmf
          simpa [lenDesc] using this

/-- C3: for every non-empty candidate list, the chosen winner occurs in
the list, has the smallest start offset occurring in it and, among
candidates sharing that start offset, the greatest matched length; the
winning (start offset, matched length) pair is invariant under
permutations of the candidate list (i.e. of the registration order). -/
theorem c3_best_match_ranking (ms : List ProductMatch) (b : ProductMatch)
    (hb : best_match ms = some b) :
    b ∈ ms ∧ (∀ m ∈ ms, b.begin_ ≤ m.begin_) ∧
      (∀ m ∈ ms, m.begin_ = b.begin_ → m.length ≤ b.length) ∧
      ∀ ms' b', ms.Perm ms' → best_match ms' = some b' →
        b'.begin_ = b.begin_ ∧ b'.length = b.length := by
  obtain ⟨h1, h2, h3⟩ := best_match_spec ms b hb
  refine ⟨h1, h2, h3, ?_⟩
  intro ms' b' hperm hb'
  obtain ⟨h1', h2', h3'⟩ := best_match_spec ms' b' hb'
  have hb'in : b' ∈ ms := hperm.mem_iff.mpr h1'
  have hbin' : b ∈ ms' := hperm.mem_iff.mp h1
  have hbeg : b'.begin_ = b.begin_ :=
    Nat.le_antisymm (h2' b hbin') (h2 b' hb'in)
  have hlen : b'.length = b.length :=
    Nat.le_antisymm (h3 b' hb'in hbeg) (h3' b hbin' hbeg.symm)
  exact ⟨hbeg, hlen⟩

/-- Candidate (start 2, length 5) for the C3 witness. -/
def c3a : ProductMatch := ⟨⟨[], [], [], none⟩, ⟨[], [], [], [], []⟩, 2, 5⟩

/-- Candidate (start 0, length 3) for the C3 witness. -/
def c3b : ProductMatch := ⟨⟨[], [], [], none⟩, ⟨[], [], [], [], []⟩, 0, 3⟩

/-- Candidate (start 4, length 3) for the C3 witness. -/
def c3c : ProductMatch := ⟨⟨[], [], [], none⟩, ⟨[], [], [], [], []⟩, 4, 3⟩

/-- Candidate (start 4, length 7) for the C3 witness. -/
def c3d : ProductMatch := ⟨⟨[], [], [], none⟩, ⟨[], [], [], [], []⟩, 4, 7⟩

/-- Witness for C3: start 0 beats start 2; at equal starts length 7 beats
length 3; and the winning pair survives swapping the registration order. -/
theorem c3_best_match_ranking_witness :
    c3b.begin_ ≤ c3a.begin_ ∧ c3c.length ≤ c3d.length ∧
      c3b.begin_ = 0 ∧ c3b.length = 3 := by
  obtain ⟨-, h2, -, h4⟩ := c3_best_match_ranking [c3a, c3b] c3b (by rfl)
  obtain ⟨-, -, h3, -⟩ := c3_best_match_ranking [c3c, c3d] c3d (by rfl)
  have h5 := h4 [c3b, c3a] c3b (by decide) (by rfl)
  exact ⟨h2 c3a (by simp), h3 c3c (by simp) (by rfl),
    by rw [← h5.1]; rfl, by rw [← h5.2]; rfl⟩

/-! ## C7: searchable-title length, determinism, (non-)idempotence -/

/-- C7 (amended): for every title the searchable title has length at most
50, and the normalization is deterministic (a pure function of the
title). -/
theorem c7_length_deterministic (t : List Char) :
    (make_searchable_title t).length ≤ 50 ∧
    ∀ u, t = u → make_searchable_title t = make_searchable_title u := by
  refine ⟨?_, fun u hu => by rw [hu]⟩
  unfold make_searchable_title
  simp

/-- Witness for C7 at a concrete title. -/
theorem c7_length_deterministic_witness :
    (make_searchable_title (("abc def").data)).length ≤ 50 ∧
      make_searchable_title (("abc def").data) =
        make_searchable_title (("abc def").data) :=
  ⟨(c7_length_deterministic (("abc def").data)).1,
    (c7_length_deterministic (("abc def").data)).2 _ rfl⟩

/-- Title refuting idempotence: 46 'a's, a space, then "forx".  One
normalization keeps the whole string minus the final 'x' (the truncation
at 50 characters), which ends in the now whole word "for"; a second
normalization truncates there. -/
def c7title : List Char := List.replicate 46 'a' ++ (" forx").data

/-- Counterexample for C7 as stated: the normalization is not idempotent;
truncating to 50 characters can expose a break word that a second
application then cuts. -/
theorem c7_cex :
    make_searchable_title (make_searchable_title c7title) ≠
      make_searchable_title c7title := by
  decide

/-! ## C8: the holistic pattern for "dmc-gf3" -/

/-- The parsed body of the holistic pattern for "dmc-gf3". -/
def dmcgf3Elems : List PatElem :=
  [PatElem.lit 'd', PatElem.lit 'm', PatElem.lit 'c', PatElem.wstar,
   PatElem.lit 'g', PatElem.lit 'f', PatElem.wstar, PatElem.lit '3']

/-- The synthesized pattern source for model "dmc-gf3" with no ignorable
segments and no family prefix. -/
theorem convert_dmcgf3_eq :
    convert_model_to_regex_string (("dmc-gf3").data) [] none =
      ['\\', 'b', 'd', 'm', 'c', '\\', 'W', '*', 'g', 'f', '\\', 'W', '*', '3'] ++
        lookaheadSrc := by
  rfl

/-- C8: the holistic pattern for "dmc-gf3" (no ignorable segments, no
family prefix) parses to literal/gap elements and, under the pattern
semantics, finds a match in listing titles containing "dmc gf3", "dmcgf3"
or "dmc-gf3", matches "DMC GF3" case-insensitively (titles are lowercased
at listing construction), and finds no match when the title contains
"dmc-gf30" followed directly by another letter or digit. -/
theorem c8_holistic_dmcgf3 :
    parseHolistic (convert_model_to_regex_string (("dmc-gf3").data) [] none) =
      some dmcgf3Elems ∧
    (reSearch dmcgf3Elems
      (Listing.make (("panasonic dmc gf3 camera").data) [] [] []).searchable_title).isSome
        = true ∧
    (reSearch dmcgf3Elems
      (Listing.make (("panasonic dmcgf3 camera").data) [] [] []).searchable_title).isSome
        = true ∧
    (reSearch dmcgf3Elems
      (Listing.make (("panasonic dmc-gf3 camera").data) [] [] []).searchable_title).isSome
        = true ∧
    (reSearch dmcgf3Elems
      (Listing.make (("Panasonic DMC GF3").data) [] [] []).searchable_title).isSome
        = true ∧
    reSearch dmcgf3Elems
      (Listing.make (("panasonic dmc-gf30a camera").data) [] [] []).searchable_title
        = none ∧
    reSearch dmcgf3Elems
      (Listing.make (("panasonic dmc-gf305 camera").data) [] [] []).searchable_title
        = none := by
  exact ⟨by rfl, by rfl, by rfl, by rfl, by rfl, by rfl, by rfl⟩

/-! ## C6: the searchable title equals its spec description

The code truncates at the three break words sequentially; the spec
describes one truncation at the earliest whole-word occurrence of any
break word.  The two agree because break words consist of word characters
only, so occurrences cannot straddle a truncation made at a whole-word
start, and a truncation at such a start cannot create new whole-word
occurrences. -/

theorem range_find?_eq_some {p : Nat → Bool} {n q : Nat} :
    (List.range n).find? p = some q ↔
      q < n ∧ p q = true ∧ ∀ j < q, p j = false := by
  constructor
  · intro hf
    rw [List.find?_eq_some] at hf
    obtain ⟨hq, as, bs, heq, hmiss⟩ := hf
    have hqn : q < n := by
      have hm : q ∈ List.range n := by rw [heq]; simp
      simpa using hm
    have hlen : as.length < n := by
      have hl := congrArg List.length heq
      simp only [List.length_range, List.length_append, List.length_cons] at hl
      omega
    have hasq : as.length = q := by
      have hidx : (List.range n)[as.length]? = some q := by
        rw [heq, List.getElem?_append_right (Nat.le_refl _)]
        simp
      rw [List.getElem?_range hlen] at hidx
      exact (Option.some_inj.mp hidx)
    refine ⟨hqn, hq, ?_⟩
    intro j hj
    have hastake : as = (List.range n).take q := by
      rw [heq, ← hasq, List.take_left]
    have hjmem : j ∈ as := by
      rw [hastake, List.take_range]
      simp only [List.mem_range]
      omega
    have := hmiss j hjmem
    revert this
    cases p j <;> simp
  · rintro ⟨hqn, hpq, hmiss⟩
    have hsome : ((List.range n).find? p).isSome := by
      rw [List.find?_isSome]
      exact ⟨q, by simpa using hqn, hpq⟩
    cases hf : (List.range n).find? p with
    | none => rw [hf] at hsome; simp at hsome
    | some x =>
      have hx := List.find?_some hf
      have hxmem : x ∈ List.range n := List.mem_of_find?_eq_some hf
      have hxn : x < n := by simpa using hxmem
      -- x is also the least hit; compare with q
      have hxmin : ∀ j < x, p j = false := by
        rw [List.find?_eq_some] at hf
        obtain ⟨_, as, bs, heq, hmiss'⟩ := hf
        have hlen : as.length < n := by
          have hl := congrArg List.length heq
          simp only [List.length_range, List.length_append, List.length_cons] at hl
          omega
        have hasx : as.length = x := by
          have hidx : (List.range n)[as.length]? = some x := by
            rw [heq, List.getElem?_append_right (Nat.le_refl _)]
            simp
          rw [List.getElem?_range hlen] at hidx
          exact (Option.some_inj.mp hidx)
        intro j hj
        have hastake : as = (List.range n).take x := by
          rw [heq, ← hasx, List.take_left]
        have hjmem : j ∈ as := by
          rw [hastake, List.take_range]
          simp only [List.mem_range]
          omega
        have := hmiss' j hjmem
        revert this
        cases p j <;> simp
      have hxq : x = q := by
        rcases Nat.lt_trichotomy x q with h | h | h
        · exact absurd hx (by rw [hmiss x h]; simp)
        · exact h
        · exact absurd hpq (by rw [hxmin q h]; simp)
      rw [hxq]

theorem range_find?_eq_none {p : Nat → Bool} {n : Nat} :
    (List.range n).find? p = none ↔ ∀ j < n, p j = false := by
  rw [List.find?_eq_none]
  constructor
  · intro h j hj
    have := h j (by simpa using hj)
    revert this
    cases p j <;> simp
  · intro h x hx
    rw [h x (by simpa using hx)]
    simp

theorem wordAt_take {s : List Char} {p j : Nat} (h : j < p) :
    wordAt (s.take p) j = wordAt s j := by
  unfold wordAt
  rw [List.getElem?_take, if_pos h]

theorem boundaryAt_take {s : List Char} {p j : Nat} (h : j < p) :
    boundaryAt (s.take p) j = boundaryAt s j := by
  unfold boundaryAt
  by_cases hj : j = 0
  · rw [if_pos hj, if_pos hj, wordAt_take h]
  · rw [if_neg hj, if_neg hj, wordAt_take h, wordAt_take (by omega : j - 1 < p)]

theorem isPrefixOf_take_drop {w s : List Char} {i p : Nat}
    (h : i + w.length ≤ p) :
    w.isPrefixOf ((s.take p).drop i) = w.isPrefixOf (s.drop i) := by
  rw [List.drop_take]
  rcases hb : w.isPrefixOf (s.drop i) with _ | _
  · rcases hc : w.isPrefixOf ((s.drop i).take (p - i)) with _ | _
    · rfl
    · have := List.isPrefixOf_iff_prefix.mp hc
      rw [List.prefix_take_iff] at this
      have := List.isPrefixOf_iff_prefix.mpr this.1
      rw [hb] at this
      exact this.symm
  · have hpre := List.isPrefixOf_iff_prefix.mp hb
    have : w <+: (s.drop i).take (p - i) := by
      rw [List.prefix_take_iff]
      exact ⟨hpre, by omega⟩
    rw [List.isPrefixOf_iff_prefix.mpr this]

theorem wholeWordAt_take {w s : List Char} {i p : Nat} (hw : w ≠ [])
    (h : i + w.length < p) :
    wholeWordAt w (s.take p) i = wholeWordAt w s i := by
  have hwlen : 0 < w.length := by
    cases w with
    | nil => exact absurd rfl hw
    | cons c t => simp
  unfold wholeWordAt
  rw [isPrefixOf_take_drop (by omega), boundaryAt_take (by omega : i < p),
    boundaryAt_take h]

theorem getElem?_of_isPrefixOf {w t : List Char} (h : w.isPrefixOf t = true)
    {k : Nat} (hk : k < w.length) : t[k]? = w[k]? := by
  obtain ⟨u, hu⟩ := List.isPrefixOf_iff_prefix.mp h
  rw [← hu, List.getElem?_append_left hk]

theorem wordAt_of_occ_char {w s : List Char} {i k : Nat}
    (hpre : w.isPrefixOf (s.drop i) = true) (hk : k < w.length)
    (hall : w.all pyWordChar = true) : wordAt s (i + k) = true := by
  unfold wordAt
  have h2 : s[i + k]? = (s.drop i)[k]? := (List.getElem?_drop s i k).symm
  rw [h2, getElem?_of_isPrefixOf hpre hk, List.getElem?_eq_getElem hk]
  exact (List.all_eq_true.mp hall) w[k] (List.getElem_mem hk)

/-- If a whole-word occurrence of `w` (word characters only) starts at `p`,
no occurrence of another all-word-character string `w'` starting before `p`
can reach position `p`: a character of `w'` would sit just before `p`,
contradicting the boundary there. -/
theorem occ_lt_of_occ {w w' s : List Char} {p i : Nat}
    (hw : w ≠ []) (hwall : w.all pyWordChar = true)
    (_hw' : w' ≠ []) (hw'all : w'.all pyWordChar = true)
    (hp : wholeWordAt w s p = true)
    (hi : w'.isPrefixOf (s.drop i) = true) (hlt : i < p) :
    i + w'.length < p := by
  by_contra hge
  have hge' : p ≤ i + w'.length := by omega
  have hk : p - 1 - i < w'.length := by omega
  have hwp1 : wordAt s (p - 1) = true := by
    have hcc := wordAt_of_occ_char hi hk hw'all
    have hip : i + (p - 1 - i) = p - 1 := by omega
    rwa [hip] at hcc
  unfold wholeWordAt at hp
  simp only [Bool.and_eq_true] at hp
  obtain ⟨⟨hpre, hbnd⟩, _⟩ := hp
  have hw0 : 0 < w.length := by
    cases w with
    | nil => exact absurd rfl hw
    | cons c t => simp
  have hwp : wordAt s p = true := by
    have hcc := wordAt_of_occ_char hpre hw0 hwall
    simpa using hcc
  have hp0 : ¬p = 0 := by omega
  unfold boundaryAt at hbnd
  rw [if_neg hp0, hwp1, hwp] at hbnd
  simp at hbnd

/-- A whole-word occurrence inside the prefix `s.take p` (where `p` starts
a whole-word occurrence of `w` in `s`) is a whole-word occurrence in `s`
ending strictly before `p`. -/
theorem occ_take_imp {w w' s : List Char} {p j : Nat}
    (hw : w ≠ []) (hwall : w.all pyWordChar = true)
    (hw' : w' ≠ []) (hw'all : w'.all pyWordChar = true)
    (hp : wholeWordAt w s p = true)
    (hj : wholeWordAt w' (s.take p) j = true) :
    wholeWordAt w' s j = true ∧ j + w'.length < p := by
  have hjpre : w'.isPrefixOf ((s.take p).drop j) = true := by
    unfold wholeWordAt at hj
    simp only [Bool.and_eq_true] at hj
    exact hj.1.1
  have hw'0 : 0 < w'.length := by
    cases w' with
    | nil => exact absurd rfl hw'
    | cons c t => simp
  have hlen : j + w'.length ≤ p := by
    have hp1 := (List.isPrefixOf_iff_prefix.mp hjpre).length_le
    rw [List.length_drop, List.length_take] at hp1
    omega
  have hjlt : j < p := by omega
  have hspre : w'.isPrefixOf (s.drop j) = true := by
    rw [← isPrefixOf_take_drop hlen]
    exact hjpre
  have hfin : j + w'.length < p := occ_lt_of_occ hw hwall hw' hw'all hp hspre hjlt
  exact ⟨by rw [← wholeWordAt_take hw' hfin]; exact hj, hfin⟩

/-- Clipping of an optional position at a cut point `p`. -/
def clipLt (p : Nat) : Option Nat → Option Nat
  | some q => if q < p then some q else none
  | none => none

/-- First whole-word occurrence in a prefix cut at a whole-word start:
the clipped first occurrence in the full string. -/
theorem firstWhole_take {w w' s : List Char} {p : Nat}
    (hw : w ≠ []) (hwall : w.all pyWordChar = true)
    (hw' : w' ≠ []) (hw'all : w'.all pyWordChar = true)
    (hp : wholeWordAt w s p = true) :
    firstWhole w' (s.take p) = clipLt p (firstWhole w' s) := by
  cases hq : firstWhole w' s with
  | some q =>
    rw [firstWhole, range_find?_eq_some] at hq
    obtain ⟨hqlt, hqocc, hqmin⟩ := hq
    by_cases hqp : q < p
    · rw [clipLt, if_pos hqp, firstWhole, range_find?_eq_some]
      have hqlen : q + w'.length < p := by
        have hqpre : w'.isPrefixOf (s.drop q) = true := by
          unfold wholeWordAt at hqocc
          simp only [Bool.and_eq_true] at hqocc
          exact hqocc.1.1
        exact occ_lt_of_occ hw hwall hw' hw'all hp hqpre hqp
      refine ⟨?_, ?_, ?_⟩
      · rw [List.length_take]
        omega
      · rw [wholeWordAt_take hw' hqlen]
        exact hqocc
      · intro j hj
        by_contra hjt
        have hjt' : wholeWordAt w' (s.take p) j = true := by
          revert hjt
          cases wholeWordAt w' (s.take p) j <;> simp
        obtain ⟨hjs, _⟩ := occ_take_imp hw hwall hw' hw'all hp hjt'
        rw [hqmin j hj] at hjs
        exact Bool.false_ne_true hjs
    · rw [clipLt, if_neg hqp, firstWhole, List.find?_eq_none]
      intro j _ hjt
      obtain ⟨hjs, hjlen⟩ := occ_take_imp hw hwall hw' hw'all hp hjt
      have hjq : j < q := by omega
      rw [hqmin j hjq] at hjs
      exact Bool.false_ne_true hjs
  | none =>
    rw [firstWhole, List.find?_eq_none] at hq
    rw [clipLt, firstWhole, List.find?_eq_none]
    intro j hjmem hjt
    obtain ⟨hjs, hjlen⟩ := occ_take_imp hw hwall hw' hw'all hp hjt
    have hjrange : j ∈ List.range (s.length + 1) := by
      simp only [List.mem_range] at hjmem ⊢
      rw [List.length_take] at hjmem
      omega
    exact hq j hjrange hjs

theorem optMin_clip (p : Nat) (a b : Option Nat) :
    clipLt p (optMin a b) = optMin (clipLt p a) (clipLt p b) := by
  cases a with
  | none => cases b <;> rfl
  | some x =>
    cases b with
    | none => by_cases hx : x < p <;> simp [optMin, clipLt, hx]
    | some y =>
      by_cases hx : x < p <;> by_cases hy : y < p
      · have hmin : min x y < p := by omega
        simp [optMin, clipLt, hx, hy, hmin]
      · have hxy : min x y = x := by omega
        simp [optMin, clipLt, hx, hy, hxy]
      · have hxy : min x y = y := by omega
        simp [optMin, clipLt, hx, hy, hxy]
      · have hmin : ¬min x y < p := by omega
        simp [optMin, clipLt, hx, hy, hmin]

theorem minCutPos_take {ws : List (List Char)} {w s : List Char} {p : Nat}
    (hws : ∀ u ∈ ws, u ≠ [] ∧ u.all pyWordChar = true)
    (hw : w ≠ []) (hwall : w.all pyWordChar = true)
    (hp : wholeWordAt w s p = true) :
    minCutPos ws (s.take p) = clipLt p (minCutPos ws s) := by
  induction ws with
  | nil => simp [minCutPos, clipLt]
  | cons u us ih =>
    have hu := hws u (by simp)
    have hus : ∀ v ∈ us, v ≠ [] ∧ v.all pyWordChar = true :=
      fun v hv => hws v (by simp [hv])
    show optMin (firstWhole u (s.take p)) (minCutPos us (s.take p)) =
      clipLt p (optMin (firstWhole u s) (minCutPos us s))
    rw [ih hus, firstWhole_take hw hwall hu.1 hu.2 hp, optMin_clip]

/-- Sequential truncation at each break word equals one truncation at the
earliest whole-word occurrence of any break word. -/
theorem foldCut_eq_cutAtMin (ws : List (List Char))
    (hws : ∀ u ∈ ws, u ≠ [] ∧ u.all pyWordChar = true) :
    ∀ s, ws.foldl (fun t w => cutOne w t) s = cutAtMin ws s := by
  induction ws with
  | nil =>
    intro s
    rfl
  | cons w rest ih =>
    intro s
    have hwprops := hws w (by simp)
    have hrest : ∀ u ∈ rest, u ≠ [] ∧ u.all pyWordChar = true :=
      fun u hu => hws u (by simp [hu])
    simp only [List.foldl_cons]
    have hmc : minCutPos (w :: rest) s = optMin (firstWhole w s) (minCutPos rest s) :=
      rfl
    cases hf : firstWhole w s with
    | none =>
      have hc : cutOne w s = s := by rw [cutOne, hf]
      rw [hc, ih hrest s]
      unfold cutAtMin
      rw [hmc, hf]
      rfl
    | some p =>
      have hocc : wholeWordAt w s p = true := by
        have := (range_find?_eq_some.mp hf).2.1
        exact this
      have hc : cutOne w s = s.take p := by rw [cutOne, hf]
      rw [hc, ih hrest (s.take p)]
      unfold cutAtMin
      rw [minCutPos_take hrest hwprops.1 hwprops.2 hocc, hmc, hf]
      cases hr : minCutPos rest s with
      | none =>
        simp [clipLt, optMin]
      | some q =>
        by_cases hqp : q < p
        · have hmin : min p q = q := by omega
          simp only [clipLt, if_pos hqp, optMin, hmin]
          rw [List.take_take]
          have hm2 : min q p = q := by omega
          rw [hm2]
        · have hmin : min p q = p := by omega
          simp only [clipLt, if_neg hqp, optMin, hmin]

/-- C6: for every listing title, the derived searchable title equals the
spec's description: replace each parenthesized span by an equal-length run
of spaces, truncate at the start of the earliest whole-word occurrence of
any break word (for / pour / fuer), then take the first 50 characters. -/
theorem c6_searchable_title_spec (title : List Char) :
    make_searchable_title title = searchableTitleSpec title := by
  unfold make_searchable_title searchableTitleSpec applyBreaks
  rw [foldCut_eq_cutAtMin breakWords (by decide) (replaceParens title)]
